import Mathlib

/-!
Verification of the composition and agent-loop core of the langchain-go
repository.  The Go sources are shallowly embedded: Go functions become Lean
functions, `any`-typed values become a dynamic value type `Dyn` tagged with a
small universe of Go types, fallible Go calls (`(T, error)` returns) become
`Except` values, and Go panics are modelled as a separate error constructor
that propagates without being wrapped.  Go maps are modelled as association
lists; map iteration order, which Go leaves unspecified, is fixed to list
order and only order-insensitive facts are proved about map contents unless
noted otherwise in the doc comment of the definition.
-/

namespace LangChainGo

/-- The small universe of Go types needed by the claims about the type-erased
`Sequence` pipeline (`src/runnable/sequence.go`). -/
inductive Ty where
  | int
  | str
  | bool
deriving DecidableEq, Repr

/-- Interpretation of `Ty` as Lean types. -/
@[reducible] def Ty.denote : Ty → Type
  | .int => Int
  | .str => String
  | .bool => Bool

/-- The Go type name, as `fmt`'s `%T` verb prints it. -/
def Ty.goName : Ty → String
  | .int => "int"
  | .str => "string"
  | .bool => "bool"

/-- A dynamically typed value: the model of a Go `any` (interface) value, a
pair of its dynamic type and the value itself. -/
structure Dyn where
  ty : Ty
  val : ty.denote

/-- Go type assertion `d.(t)` in its checked form: `some` when the dynamic
type matches, `none` otherwise. -/
def Dyn.cast (t : Ty) (d : Dyn) : Option t.denote :=
  if h : d.ty = t then some (h ▸ d.val) else none

/-- Outcome of a failing Go call: either a returned `error` value or a
runtime panic.  `fmt.Errorf` wrapping applies only to returned errors; a
panic propagates out of the caller unchanged. -/
inductive GoErr where
  | err (msg : String)
  | panic (msg : String)
deriving DecidableEq, Repr

/-- Model of Go's `fmt` `%q` verb on ordinary names: the string surrounded by
double quotes (Go additionally escapes special characters, which the names in
the claims do not contain). -/
def goQuote (s : String) : String :=
  "\"" ++ s ++ "\""

/-! ## Sequence (`src/runnable/sequence.go`) -/

/-- One type-erased step of a `Sequence`: the `step` struct of
`src/runnable/sequence.go` (name plus an `any -> (any, error)` closure). -/
structure Step where
  name : String
  invoke : Dyn → Except GoErr Dyn

/-- The `Sequence[I, O]` struct.  `castOut` models the generic type assertion
`current.(O)` performed on the final value for this instantiation of the Go
generic (`some` on success), and `outName` the `%T` rendering of `O` used in
the mismatch error message. -/
structure Sequence (O : Type) where
  steps : List Step
  castOut : Dyn → Option O
  outName : String

/-- The loop body of `Sequence.Invoke` (lines 46-52 of
`src/runnable/sequence.go`): thread the value through the steps in order,
wrapping a returned error with the step's index and name; a panic propagates
unwrapped. -/
def runSteps : List Step → Nat → Dyn → Except GoErr Dyn
  | [], _, cur => .ok cur
  | st :: rest, i, cur =>
    match st.invoke cur with
    | .error (.err m) =>
        .error (.err ("step " ++ toString i ++ " (" ++ st.name ++ "): " ++ m))
    | .error (.panic p) => .error (.panic p)
    | .ok v => runSteps rest (i + 1) v

/-- `Sequence.Invoke`: run all steps, then type-assert the final value to the
output type (`current.(O)`, lines 53-57 of `src/runnable/sequence.go`).  Go
returns `(zero O, err)` on failure; the `Except.error` case models that pair. -/
def Sequence.invoke (s : Sequence O) (input : Dyn) : Except GoErr O :=
  match runSteps s.steps 0 input with
  | .error e => .error e
  | .ok cur =>
    match s.castOut cur with
    | some o => .ok o
    | none =>
        .error (.err ("final step output type mismatch: got " ++ cur.ty.goName
          ++ ", want " ++ s.outName))

/-- The number of `st.invoke` calls the `Sequence.Invoke` loop makes on a
given input: each loop iteration calls the current step once and the loop
stops at the first error. -/
def stepsExecuted : List Step → Dyn → Nat
  | [], _ => 0
  | st :: rest, cur =>
    match st.invoke cur with
    | .error _ => 1
    | .ok v => 1 + stepsExecuted rest v

/-- A typed runnable's `Invoke` as the fixed-arity builders consume it: a
name and an `A -> (B, error)` function (side effects and the unused
context/options are not modelled). -/
structure TRunnable (a b : Ty) where
  name : String
  invoke : a.denote → Except String b.denote

/-- The step closure the fixed-arity builders `Pipe2`/`Pipe3`/`Pipe4` build
around a typed runnable: box the output, and perform the Go single-form type
assertion `input.(A)` on the way in, which panics (it does not return an
error) when the dynamic type differs. -/
def typedStep (a b : Ty) (r : TRunnable a b) : Step where
  name := r.name
  invoke := fun input =>
    match input.cast a with
    | some x =>
      match r.invoke x with
      | .ok y => .ok ⟨b, y⟩
      | .error e => .error (.err e)
    | none =>
        .error (.panic ("interface conversion: interface \x7b\x7d is "
          ++ input.ty.goName ++ ", not " ++ a.goName))

/-- `Pipe3` (lines 104-122 of `src/runnable/sequence.go`): chain three typed
runnables into a `Sequence[A, D]`; the final `current.(D)` assertion of that
instantiation is `Dyn.cast d`. -/
def Pipe3 (r1 : TRunnable a b) (r2 : TRunnable b c) (r3 : TRunnable c d) :
    Sequence d.denote where
  steps := [typedStep a b r1, typedStep b c r2, typedStep c d r3]
  castOut := Dyn.cast d
  outName := d.goName

/-- A `core.Runnable[any, any]` as `Pipe` receives it: a name and an
`any -> (any, error)` function. -/
structure AnyRunnable where
  name : String
  invoke : Dyn → Except GoErr Dyn

/-- `Pipe` (lines 152-164 of `src/runnable/sequence.go`): build a
`Sequence[any, any]` whose steps call each runnable directly on the untyped
value; with `O = any` the final `current.(O)` assertion always succeeds. -/
def Pipe (runnables : List AnyRunnable) : Sequence Dyn where
  steps := runnables.map fun r => { name := r.name, invoke := r.invoke }
  castOut := fun d => some d
  outName := "interface \x7b\x7d"

theorem Dyn.cast_mk (t : Ty) (v : t.denote) : Dyn.cast t ⟨t, v⟩ = some v := by
  unfold Dyn.cast
  exact dif_pos rfl

theorem Dyn.cast_mk_ne (t u : Ty) (v : u.denote) (h : u ≠ t) :
    Dyn.cast t ⟨u, v⟩ = none := by
  unfold Dyn.cast
  exact dif_neg h

/-- If a prefix of the step list succeeds, the loop continues into the rest
of the list with the threaded value and the shifted index. -/
theorem runSteps_append_ok :
    ∀ (pre : List Step) (i : Nat) (x v : Dyn), runSteps pre i x = .ok v →
      ∀ l, runSteps (pre ++ l) i x = runSteps l (i + pre.length) v := by
  intro pre
  induction pre with
  | nil =>
      intro i x v h l
      simp [runSteps] at h
      simp [h]
  | cons st rest ih =>
      intro i x v h l
      simp only [runSteps] at h
      cases hst : st.invoke x with
      | error e =>
          cases e with
          | err m => rw [hst] at h; exact absurd h (by simp)
          | panic p => rw [hst] at h; exact absurd h (by simp)
      | ok w =>
          rw [hst] at h
          have harith : i + (rest.length + 1) = i + 1 + rest.length := by omega
          simp only [List.cons_append, runSteps, hst, List.length_cons, harith]
          exact ih (i + 1) w v h l

/-- If a prefix of the step list succeeds, the invoke-call count over the
whole list is the prefix length plus the count over the rest. -/
theorem stepsExecuted_append_ok :
    ∀ (pre : List Step) (i : Nat) (x v : Dyn), runSteps pre i x = .ok v →
      ∀ l, stepsExecuted (pre ++ l) x = pre.length + stepsExecuted l v := by
  intro pre
  induction pre with
  | nil =>
      intro i x v h l
      simp [runSteps] at h
      simp [h]
  | cons st rest ih =>
      intro i x v h l
      simp only [runSteps] at h
      cases hst : st.invoke x with
      | error e =>
          cases e with
          | err m => rw [hst] at h; exact absurd h (by simp)
          | panic p => rw [hst] at h; exact absurd h (by simp)
      | ok w =>
          rw [hst] at h
          have hrec := ih (i + 1) w v h l
          have hgoal : stepsExecuted ((st :: rest) ++ l) x
              = 1 + stepsExecuted (rest ++ l) w := by
            simp only [List.cons_append, stepsExecuted, hst]
            rfl
          rw [hgoal, hrec, List.length_cons]
          omega

/-- **C7.** If the steps before index `k` all succeed on the threaded values
and the step at index `k` is the first to fail (with a returned error),
`Sequence.Invoke` executes exactly `k + 1` steps — the steps after index `k`
never run, whatever they are — and returns the failing step's error wrapped
with that step's index and name (together with the zero output, which the
`Except.error` case models). -/
theorem sequence_first_failure {O : Type} (castOut : Dyn → Option O)
    (outName : String) (pre : List Step) (fs : Step) (rest : List Step)
    (x v : Dyn) (m : String)
    (hpre : runSteps pre 0 x = .ok v)
    (hfail : fs.invoke v = .error (.err m)) :
    Sequence.invoke ⟨pre ++ fs :: rest, castOut, outName⟩ x =
        .error (.err ("step " ++ toString pre.length ++ " (" ++ fs.name
          ++ "): " ++ m))
    ∧ stepsExecuted (pre ++ fs :: rest) x = pre.length + 1 := by
  constructor
  · have hrun := runSteps_append_ok pre 0 x v hpre (fs :: rest)
    simp only [Sequence.invoke, hrun, Nat.zero_add, runSteps, hfail]
  · have hcnt := stepsExecuted_append_ok pre 0 x v hpre (fs :: rest)
    simp only [hcnt, stepsExecuted, hfail]

/-- Concrete pipeline for the `C7` witness: one succeeding step, then a
failing step, then a step that must never run. -/
def wOkStep : Step := typedStep .int .int ⟨"ok1", fun n => .ok (n + 1)⟩

/-- The failing middle step of the `C7` witness pipeline. -/
def wBoomStep : Step := { name := "boom", invoke := fun _ => .error (.err "kaboom") }

/-- The trailing step of the `C7` witness pipeline. -/
def wLaterStep : Step := { name := "later", invoke := fun d => .ok d }

theorem sequence_first_failure_witness :
    Sequence.invoke ⟨[wOkStep] ++ wBoomStep :: [wLaterStep], Dyn.cast .int,
        "int"⟩ ⟨.int, (5 : Int)⟩ = .error (.err "step 1 (boom): kaboom")
    ∧ stepsExecuted ([wOkStep] ++ wBoomStep :: [wLaterStep])
        ⟨.int, (5 : Int)⟩ = 2 := by
  have h := sequence_first_failure (Dyn.cast .int) "int" [wOkStep] wBoomStep
    [wLaterStep] ⟨.int, (5 : Int)⟩ ⟨.int, (6 : Int)⟩ "kaboom" (by rfl) (by rfl)
  exact ⟨h.1, h.2⟩

/-- The first runnable of the `C4` counterexample pipeline: always outputs
the string `"hello"`. -/
def cxConst : AnyRunnable := ⟨"constStr", fun _ => .ok ⟨.str, "hello"⟩⟩

/-- The second runnable of the `C4` counterexample pipeline: an `int -> int`
doubling runnable erased to `any -> any` the way the fixed-arity builders
erase typed runnables (a Go single-form type assertion on the input). -/
def cxDouble : AnyRunnable :=
  ⟨"double", (typedStep .int .int ⟨"double", fun n => .ok (n * 2)⟩).invoke⟩

/-- The panic message produced when the string output of the first step
reaches the int-asserting second step. -/
def cxMsg : String := "interface conversion: interface \x7b\x7d is string, not int"

/-- **C4 counterexample.** In the pipeline built with the fully dynamic
variadic builder `Pipe` from `cxConst` (which outputs a string) and
`cxDouble` (whose expected input type is int), the step boundary carries a
type mismatch, yet the invocation does not fail with a `TypeMismatch` error
naming the offending step: the result is a propagated panic from inside the
second runnable's own type assertion, whose message mentions no
`TypeMismatch`, no step, and not the offending step's name. -/
theorem pipe_type_check_counterexample :
    (Pipe [cxConst, cxDouble]).invoke ⟨.int, (0 : Int)⟩ = .error (.panic cxMsg)
    ∧ ¬ ("TypeMismatch".data <:+: cxMsg.data)
    ∧ ¬ ("step".data <:+: cxMsg.data)
    ∧ ¬ ("double".data <:+: cxMsg.data) := by
  refine ⟨by rfl, by decide, by decide, by decide⟩

/-- **C4 amended.** The fully dynamic variadic builder `Pipe` performs no
runtime type check at step boundaries: each step passes the previous output
to the next runnable unchanged, so the outcome on a mismatched value is
whatever that runnable itself does (for example a panic from its own type
assertion, as in the counterexample); the `Sequence` only wraps a returned
error with the step's index and name, and the final output type assertion of
a `Pipe`-built sequence (output type `any`) always succeeds. -/
theorem pipe_passes_values_unchecked (r1 r2 : AnyRunnable) (x d0 : Dyn)
    (h : r1.invoke x = .ok d0) :
    (Pipe [r1, r2]).invoke x =
      match r2.invoke d0 with
      | .ok v => .ok v
      | .error (.err m) =>
          .error (.err ("step " ++ toString (1 : Nat) ++ " (" ++ r2.name
            ++ "): " ++ m))
      | .error (.panic p) => .error (.panic p) := by
  cases hr : r2.invoke d0 with
  | ok v => simp [Pipe, Sequence.invoke, runSteps, h, hr]
  | error e =>
      cases e with
      | err m => simp [Pipe, Sequence.invoke, runSteps, h, hr]
      | panic p => simp [Pipe, Sequence.invoke, runSteps, h, hr]

theorem pipe_passes_values_unchecked_witness :
    (Pipe [cxConst, ⟨"ident", fun d => .ok d⟩]).invoke ⟨.int, (0 : Int)⟩ =
      .ok ⟨.str, "hello"⟩ := by
  have h := pipe_passes_values_unchecked cxConst ⟨"ident", fun d => .ok d⟩
    ⟨.int, (0 : Int)⟩ ⟨.str, "hello"⟩ (by rfl)
  simpa using h

/-- **C1.** For pure (error-free) units `f`, `g`, `h`, invoking the sequence
built by `Pipe3` from them on `x` returns `h (g (f x))` with no error:
`Sequence.Invoke` threads the value through the steps in order. -/
theorem pipe3_pure_compose (a b c d : Ty)
    (f : a.denote → b.denote) (g : b.denote → c.denote)
    (h : c.denote → d.denote) (nf ng nh : String) (x : a.denote) :
    (Pipe3 ⟨nf, fun v => .ok (f v)⟩ ⟨ng, fun v => .ok (g v)⟩
        ⟨nh, fun v => .ok (h v)⟩).invoke ⟨a, x⟩ = .ok (h (g (f x))) := by
  simp [Pipe3, Sequence.invoke, runSteps, typedStep, Dyn.cast_mk]

/-! ## Parallel (`src/runnable/passthrough.go`, `Parallel`) -/

/-- The `Parallel[I]` struct: the name-to-branch mapping together with the
registration order (`branches` Go map plus the `keys` slice), modelled as one
association list in registration order; `keys` is its first projection. -/
structure Parallel (I : Type) where
  branches : List (String × (I → Except String Dyn))

/-- The registered names, in registration order (the `keys` field). -/
def Parallel.keys (p : Parallel I) : List String := p.branches.map Prod.fst

/-- `Parallel.Invoke` (lines 194-236 of `src/runnable/passthrough.go`).
Every branch goroutine runs to completion whatever the other branches do
(the semaphore and wait group only schedule them), and after the join the
`results` map holds each succeeding key's value and the `errs` map each
failing key's error; when `errs` is non-empty, one failing branch's error is
wrapped with its key and returned together with a nil map (the
`Except.error` case).  Which failing branch is surfaced follows Go map
iteration order, which is unspecified; the model fixes it to registration
order, and the theorem asserts only what holds for any choice. -/
def Parallel.invoke (p : Parallel I) (input : I) :
    Except String (List (String × Dyn)) :=
  let results := p.branches.filterMap fun kf =>
    match kf.2 input with
    | .ok v => some (kf.1, v)
    | .error _ => none
  let errs := p.branches.filterMap fun kf =>
    match kf.2 input with
    | .error e => some (kf.1, e)
    | .ok _ => none
  match errs with
  | [] => .ok results
  | ke :: _ => .error ("parallel branch " ++ goQuote ke.1 ++ ": " ++ ke.2)

/-- **C2.** If every branch of a `Parallel` succeeds, `Invoke` returns a
mapping whose keys are exactly the registered names (no missing and no extra
entries); if at least one branch fails, it returns an error that wraps a
failing branch's name around that branch's error, and — being the
`Except.error` case, which models Go's `(nil, err)` return — no partial
results are observable. -/
theorem parallel_all_or_nothing {I : Type} (p : Parallel I) (input : I) :
    ((∀ kf ∈ p.branches, ∃ v, kf.2 input = Except.ok v) →
      ∃ res, p.invoke input = .ok res ∧ res.map Prod.fst = p.keys ∧
        ∀ kf ∈ p.branches, ∀ v, kf.2 input = .ok v → (kf.1, v) ∈ res)
    ∧ ((∃ kf ∈ p.branches, ∃ e, kf.2 input = .error e) →
      ∃ k e, p.invoke input =
          .error ("parallel branch " ++ goQuote k ++ ": " ++ e)
        ∧ ∃ f, (k, f) ∈ p.branches ∧ f input = .error e) := by
  constructor
  · intro hall
    have herrs : (p.branches.filterMap fun kf =>
        match kf.2 input with
        | .error e => some (kf.1, e)
        | .ok _ => none) = [] := by
      rw [List.filterMap_eq_nil_iff]
      intro kf hkf
      obtain ⟨v, hv⟩ := hall kf hkf
      rw [hv]
    refine ⟨p.branches.filterMap fun kf =>
      match kf.2 input with
      | .ok v => some (kf.1, v)
      | .error _ => none, ?_, ?_, ?_⟩
    · simp only [Parallel.invoke, herrs]
    · have : ∀ l : List (String × (I → Except String Dyn)),
          (∀ kf ∈ l, ∃ v, kf.2 input = Except.ok v) →
          (l.filterMap fun kf =>
            match kf.2 input with
            | .ok v => some (kf.1, v)
            | .error _ => none).map Prod.fst = l.map Prod.fst := by
        intro l
        induction l with
        | nil => intro _; rfl
        | cons kf rest ih =>
            intro hl
            obtain ⟨v, hv⟩ := hl kf (by simp)
            simp only [List.filterMap_cons, hv, List.map_cons]
            rw [ih fun x hx => hl x (by simp [hx])]
      exact this p.branches hall
    · intro kf hkf v hv
      exact List.mem_filterMap.mpr ⟨kf, hkf, by rw [hv]⟩
  · intro hfail
    obtain ⟨kf, hkf, e, he⟩ := hfail
    have hmem : (kf.1, e) ∈ p.branches.filterMap fun kf =>
        match kf.2 input with
        | .error e => some (kf.1, e)
        | .ok _ => none :=
      List.mem_filterMap.mpr ⟨kf, hkf, by rw [he]⟩
    cases herrs : p.branches.filterMap fun kf =>
        match kf.2 input with
        | .error e => some (kf.1, e)
        | .ok _ => none with
    | nil => rw [herrs] at hmem; exact absurd hmem (by simp)
    | cons ke tl =>
        refine ⟨ke.1, ke.2, ?_, ?_⟩
        · simp only [Parallel.invoke, herrs]
        · have : ke ∈ p.branches.filterMap fun kf =>
              match kf.2 input with
              | .error e => some (kf.1, e)
              | .ok _ => none := by rw [herrs]; simp
          obtain ⟨kf', hkf', hsome⟩ := List.mem_filterMap.mp this
          cases hrun : kf'.2 input with
          | ok v => rw [hrun] at hsome; exact absurd hsome (by simp)
          | error e' =>
              rw [hrun] at hsome
              simp only [Option.some.injEq] at hsome
              have h1 : ke.1 = kf'.1 := by rw [← hsome]
              have h2 : ke.2 = e' := by rw [← hsome]
              refine ⟨kf'.2, ?_, ?_⟩
              · rw [h1]
                simpa using hkf'
              · rw [h2, hrun]

theorem parallel_all_or_nothing_witness :
    (∃ res, (Parallel.mk [("x", fun _ => .ok ⟨.int, 1⟩),
        ("y", fun _ => .ok ⟨.int, 2⟩)] : Parallel Int).invoke 0 = .ok res
      ∧ res.map Prod.fst = ["x", "y"])
    ∧ ∃ k e, (Parallel.mk [("good", fun _ => .ok ⟨.int, 1⟩),
        ("bad", fun _ => .error "boom")] : Parallel Int).invoke 0 =
        .error ("parallel branch " ++ goQuote k ++ ": " ++ e) := by
  constructor
  · have h := (parallel_all_or_nothing
      (Parallel.mk [("x", fun _ => .ok ⟨.int, 1⟩), ("y", fun _ => .ok ⟨.int, 2⟩)]
        : Parallel Int) 0).1 (by
          intro kf hkf
          simp only [List.mem_cons, List.not_mem_nil, or_false] at hkf
          rcases hkf with h1 | h2
          · exact ⟨⟨.int, 1⟩, by rw [h1]⟩
          · exact ⟨⟨.int, 2⟩, by rw [h2]⟩)
    obtain ⟨res, hres, hkeys, _⟩ := h
    refine ⟨res, hres, ?_⟩
    rw [hkeys]
    rfl
  · have h := (parallel_all_or_nothing
      (Parallel.mk [("good", fun _ => .ok ⟨.int, 1⟩),
        ("bad", fun _ => .error "boom")] : Parallel Int) 0).2
      ⟨("bad", fun _ => .error "boom"), by simp, "boom", rfl⟩
    obtain ⟨k, e, he, _⟩ := h
    exact ⟨k, e, he⟩

/-! ## Branch (`src/runnable/branch.go`) -/

/-- The `BranchCondition` struct: a predicate paired with a runnable's
`Invoke`. -/
structure BranchCond (I O : Type) where
  condition : I → Bool
  runnable : I → Except String O

/-- The `Branch` struct: ordered conditions plus an optional default. -/
structure Branch (I O : Type) where
  conditions : List (BranchCond I O)
  defaultBranch : Option (I → Except String O)

/-- The loop of `Branch.Invoke` (lines 54-65 of `src/runnable/branch.go`):
try each condition in order, dispatch on the first true one, fall back to
the default, and fail when there is none. -/
def branchEval (input : I) :
    List (BranchCond I O) → Option (I → Except String O) → Except String O
  | [], none => .error "no branch condition matched and no default branch provided"
  | [], some d => d input
  | c :: rest, dflt =>
    if c.condition input then c.runnable input else branchEval input rest dflt

/-- `Branch.Invoke`. -/
def Branch.invoke (b : Branch I O) (input : I) : Except String O :=
  branchEval input b.conditions b.defaultBranch

/-- The number of condition evaluations the `Branch.Invoke` loop performs on
an input: one per iteration, stopping at the first true condition. -/
def predsEvaluated (input : I) : List (BranchCond I O) → Nat
  | [] => 0
  | c :: rest =>
    if c.condition input then 1 else 1 + predsEvaluated input rest

/-- **C8.** `Branch.Invoke` dispatches to the unit paired with the first
predicate returning true: when the predicates before `c` are all false and
`c`'s predicate is true, the result is `c`'s unit on the input — whatever
the later conditions are — and exactly `pre.length + 1` predicates are
evaluated, so predicates after the first true one are never evaluated; and
when no predicate matches and there is no default, `Invoke` fails with the
no-branch-matched error. -/
theorem branch_first_match :
    (∀ (I O : Type) (pre : List (BranchCond I O)) (c : BranchCond I O)
        (post : List (BranchCond I O)) (dflt : Option (I → Except String O))
        (input : I),
      (∀ p ∈ pre, p.condition input = false) → c.condition input = true →
        Branch.invoke ⟨pre ++ c :: post, dflt⟩ input = c.runnable input
        ∧ predsEvaluated input (pre ++ c :: post) = pre.length + 1)
    ∧ (∀ (I O : Type) (b : Branch I O) (input : I),
      (∀ p ∈ b.conditions, p.condition input = false) →
        b.defaultBranch = none →
        Branch.invoke b input =
          .error "no branch condition matched and no default branch provided") := by
  constructor
  · intro I O pre c post dflt input hpre hc
    induction pre with
    | nil =>
        simp [Branch.invoke, branchEval, predsEvaluated, hc]
    | cons p rest ih =>
        have hp : p.condition input = false := hpre p (by simp)
        have hrest : ∀ q ∈ rest, q.condition input = false := fun q hq =>
          hpre q (by simp [hq])
        have := ih hrest
        simp only [List.cons_append, Branch.invoke, branchEval, predsEvaluated,
          hp, if_false, List.length_cons, Bool.false_eq_true] at this ⊢
        obtain ⟨h1, h2⟩ := this
        refine ⟨h1, ?_⟩
        show 1 + predsEvaluated input (rest ++ c :: post) = rest.length + 1 + 1
        rw [h2]
        omega
  · intro I O b input hall hnone
    obtain ⟨conds, dflt⟩ := b
    simp only at hall hnone
    subst hnone
    induction conds with
    | nil => rfl
    | cons p rest ih =>
        have hp : p.condition input = false := hall p (by simp)
        have := ih fun q hq => hall q (by simp [hq])
        simp only [Branch.invoke, branchEval, hp, Bool.false_eq_true,
          if_false] at this ⊢
        exact this

theorem branch_first_match_witness :
    Branch.invoke (⟨[⟨fun n => n < 0, fun _ => .ok "neg"⟩,
        ⟨fun n => n > 0, fun _ => .ok "pos"⟩,
        ⟨fun n => n > 1, fun _ => .ok "alsoPos"⟩], none⟩ : Branch Int String) 5
      = .ok "pos"
    ∧ predsEvaluated (5 : Int) [(⟨fun n => n < 0, fun _ => .ok "neg"⟩ :
        BranchCond Int String),
        ⟨fun n => n > 0, fun _ => .ok "pos"⟩,
        ⟨fun n => n > 1, fun _ => .ok "alsoPos"⟩] = 2
    ∧ Branch.invoke (⟨[⟨fun n => n < 0, fun _ => .ok "neg"⟩], none⟩ :
        Branch Int String) 5
      = .error "no branch condition matched and no default branch provided" := by
  have h1 := branch_first_match.1 Int String
    [⟨fun n => n < 0, fun _ => .ok "neg"⟩]
    ⟨fun n => n > 0, fun _ => .ok "pos"⟩
    [⟨fun n => n > 1, fun _ => .ok "alsoPos"⟩] none 5
    (by intro p hp; simp only [List.mem_singleton] at hp; rw [hp]; decide)
    (by decide)
  have h2 := branch_first_match.2 Int String
    ⟨[⟨fun n => n < 0, fun _ => .ok "neg"⟩], none⟩ 5
    (by intro p hp; simp only [List.mem_singleton] at hp; rw [hp]; decide)
    rfl
  exact ⟨h1.1, h1.2, h2⟩

/-! ## Stream Iterator (`src/core/config.go`, `StreamIterator`) -/

/-- The `StreamChunk` struct: a value together with an optional error. -/
structure StreamChunk (T : Type) where
  value : T
  err : Option String

/-- The consumer-visible state of a `StreamIterator` whose producer has
already emitted its chunks and closed the channel (the situation of the
claim): `buf` is what remains in the channel and `closed` is the iterator's
own `Close` flag.  Receiving from the closed-and-drained channel yields the
not-ok result forever. -/
structure StreamIterator (T : Type) where
  buf : List (StreamChunk T)
  closed : Bool

/-- `StreamIterator.Next` (lines 199-218 of `src/core/config.go`): if the
iterator was closed, report exhaustion; otherwise receive the next chunk —
channel empty (closed by the producer) reports exhaustion, an error chunk
yields `(zero, false, err)`, and a value chunk yields `(value, true, nil)`.
The returned iterator is the post-call state of the receiver. -/
def StreamIterator.next [Inhabited T] (s : StreamIterator T) :
    (T × Bool × Option String) × StreamIterator T :=
  if s.closed then ((default, false, none), s)
  else
    match s.buf with
    | [] => ((default, false, none), s)
    | c :: rest =>
      match c.err with
      | some e => ((default, false, some e), { s with buf := rest })
      | none => ((c.value, true, none), { s with buf := rest })

/-- **C5.** Over a stream whose producer emitted values `a`, `b`, `c` and
closed, successive `Next` calls return `(a, true, nil)`, `(b, true, nil)`,
`(c, true, nil)` and then `(zero, false, nil)` with the state unchanged — so
once exhausted, every subsequent call returns plain exhaustion; and over a
stream of one value `a` then one error chunk, `Next` returns
`(a, true, nil)`, then exactly one `(zero, false, err)`, after which the
state is the exhausted one. -/
theorem streamIterator_next_sequence (T : Type) [Inhabited T]
    (a b c zv : T) (e : String) :
    StreamIterator.next (⟨[⟨a, none⟩, ⟨b, none⟩, ⟨c, none⟩], false⟩ :
        StreamIterator T)
      = ((a, true, none), ⟨[⟨b, none⟩, ⟨c, none⟩], false⟩)
    ∧ StreamIterator.next (⟨[⟨b, none⟩, ⟨c, none⟩], false⟩ : StreamIterator T)
      = ((b, true, none), ⟨[⟨c, none⟩], false⟩)
    ∧ StreamIterator.next (⟨[⟨c, none⟩], false⟩ : StreamIterator T)
      = ((c, true, none), ⟨[], false⟩)
    ∧ StreamIterator.next (⟨[], false⟩ : StreamIterator T)
      = ((default, false, none), ⟨[], false⟩)
    ∧ StreamIterator.next (⟨[⟨a, none⟩, ⟨zv, some e⟩], false⟩ :
        StreamIterator T)
      = ((a, true, none), ⟨[⟨zv, some e⟩], false⟩)
    ∧ StreamIterator.next (⟨[⟨zv, some e⟩], false⟩ : StreamIterator T)
      = ((default, false, some e), ⟨[], false⟩) := by
  refine ⟨?_, ?_, ?_, ?_, ?_, ?_⟩ <;> simp [StreamIterator.next]

/-! ## Assign (`src/runnable/passthrough.go`, `Assign`) -/

/-- Go map update `m[k] = v` on the association-list model of a
`map[string]V`: overwrite the entry for `k` if present, add it otherwise.
Only lookup-level facts are asserted about the resulting list, since Go map
iteration order is unspecified. -/
def mapInsert (m : List (String × V)) (k : String) (v : V) :
    List (String × V) :=
  (k, v) :: m.filter fun kv => kv.1 ≠ k

/-- Go map read `m[k]` on the association-list model. -/
def mapLookup (m : List (String × V)) (k : String) : Option V :=
  (m.find? fun kv => kv.1 = k).map Prod.snd

theorem mapLookup_insert (m : List (String × V)) (k k' : String) (v : V) :
    mapLookup (mapInsert m k v) k' =
      if k' = k then some v else mapLookup m k' := by
  by_cases h : k' = k
  · subst h
    simp [mapInsert, mapLookup, List.find?_cons_of_pos]
  · simp only [mapInsert, mapLookup, if_neg h]
    rw [List.find?_cons_of_neg _ (by simpa using Ne.symm h)]
    congr 1
    induction m with
    | nil => rfl
    | cons kv rest ih =>
        by_cases hk : kv.1 = k
        · rw [List.filter_cons_of_neg (by simpa using hk)]
          rw [List.find?_cons_of_neg _ (by simp [hk]; exact Ne.symm h)]
          exact ih
        · rw [List.filter_cons_of_pos (by simpa using hk)]
          by_cases hk' : kv.1 = k'
          · rw [List.find?_cons_of_pos _ (by simpa using hk'),
              List.find?_cons_of_pos _ (by simpa using hk')]
          · rw [List.find?_cons_of_neg _ (by simpa using hk'),
              List.find?_cons_of_neg _ (by simpa using hk')]
            exact ih

/-- The `Assign[I]` struct at a map input: the addition functions together
with their keys (the Go `additions` map and `keys` slice), as one
association list.  `NewAssign` fills `keys` by ranging over the Go map, so
the order is unspecified; the model fixes list order and the theorems assert
order-insensitive facts. -/
structure Assign (V : Type) where
  additions : List (String × (List (String × V) → Except String V))

/-- The registered addition keys. -/
def Assign.keys (a : Assign V) : List String := a.additions.map Prod.fst

/-- The loop of `Assign.Invoke` (lines 99-106 of
`src/runnable/passthrough.go`): for each addition key, evaluate the addition
function on the original input, return its error immediately if it fails,
and otherwise store the value under the key in the accumulated result. -/
def assignGo (input : List (String × V)) :
    List (String × (List (String × V) → Except String V)) →
      List (String × V) → Except String (List (String × V))
  | [], acc => .ok acc
  | kf :: rest, acc =>
    match kf.2 input with
    | .error e => .error e
    | .ok v => assignGo input rest (mapInsert acc kf.1 v)

/-- `Assign.Invoke` (lines 91-108 of `src/runnable/passthrough.go`) on a map
input: the result starts as a copy of the input map (the type assertion on
the input succeeds) and the additions are folded over it.  Go returns
`(nil, err)` when an addition fails, modelled by the `Except.error` case. -/
def Assign.invoke (a : Assign V) (input : List (String × V)) :
    Except String (List (String × V)) :=
  assignGo input a.additions input

/-- The input map of the `C9` counterexample: one key `"a"` holding `1`. -/
def c9Input : List (String × Int) := [("a", 1)]

/-- The `C9` counterexample `Assign`: a single addition registered under the
key `"a"`, which already exists in the input, always returning `2`. -/
def c9Assign : Assign Int := ⟨[("a", fun _ => .ok 2)]⟩

/-- **C9 counterexample.** When an addition key collides with an input key,
every addition succeeds and yet the returned map does not contain every key
of the input with its value unchanged: the addition's result overwrites the
input's value at that key. -/
theorem assign_overwrites_input_key :
    c9Assign.invoke c9Input = .ok [("a", (2 : Int))]
    ∧ mapLookup [("a", (2 : Int))] "a" ≠ some (1 : Int)
    ∧ mapLookup c9Input "a" = some (1 : Int) := by
  refine ⟨by rfl, by decide, by rfl⟩

theorem assignGo_all_ok {V : Type} (input : List (String × V)) :
    ∀ (adds : List (String × (List (String × V) → Except String V)))
      (acc : List (String × V)),
      (adds.map Prod.fst).Nodup →
      (∀ kf ∈ adds, ∃ v, kf.2 input = Except.ok v) →
      ∃ m, assignGo input adds acc = .ok m
        ∧ (∀ k, k ∉ adds.map Prod.fst → mapLookup m k = mapLookup acc k)
        ∧ (∀ kf ∈ adds, ∀ v, kf.2 input = .ok v → mapLookup m kf.1 = some v)
        ∧ (∀ k, (mapLookup m k).isSome ↔
            ((mapLookup acc k).isSome ∨ k ∈ adds.map Prod.fst)) := by
  intro adds
  induction adds with
  | nil =>
      intro acc _ _
      exact ⟨acc, rfl, fun k _ => rfl, fun kf hkf => absurd hkf (by simp),
        fun k => by simp⟩
  | cons kf rest ih =>
      intro acc hnd hok
      obtain ⟨v0, hv0⟩ := hok kf (by simp)
      have hnd' : (rest.map Prod.fst).Nodup := by
        simpa using hnd.of_cons
      have hnotin : kf.1 ∉ rest.map Prod.fst := by
        have := hnd
        simp only [List.map_cons, List.nodup_cons] at this
        exact this.1
      obtain ⟨m, hm, hframe, hadds, hsome⟩ := ih (mapInsert acc kf.1 v0) hnd'
        fun x hx => hok x (by simp [hx])
      refine ⟨m, ?_, ?_, ?_, ?_⟩
      · simp only [assignGo, hv0]
        exact hm
      · intro k hk
        simp only [List.map_cons, List.mem_cons, not_or] at hk
        rw [hframe k hk.2, mapLookup_insert, if_neg hk.1]
      · intro kg hkg v hv
        rcases List.mem_cons.mp hkg with heq | hmem
        · subst heq
          rw [hv0] at hv
          injection hv with hv
          subst hv
          rw [hframe kg.1 hnotin, mapLookup_insert, if_pos rfl]
        · exact hadds kg hmem v hv
      · intro k
        rw [hsome k, mapLookup_insert]
        by_cases hk : k = kf.1
        · subst hk
          simp
        · simp [hk, if_neg hk]

/-- **C9 amended.** For an `Assign` whose addition keys are distinct and a
map input: when every addition function succeeds, `Invoke` returns a map in
which every input key *not among the addition keys* keeps its input value,
each addition key holds that addition function's result (overwriting any
input value at that key, as the counterexample shows), and a key is present
exactly when it is an input key or an addition key; when some addition
function fails, `Invoke` returns a failing addition's error together with a
nil map (the `Except.error` case).  The input map itself is copied, never
mutated — immediate in this pure model. -/
theorem assign_invoke_spec :
    (∀ (V : Type) (a : Assign V) (input : List (String × V)),
      a.keys.Nodup →
      (∀ kf ∈ a.additions, ∃ v, kf.2 input = Except.ok v) →
      ∃ m, a.invoke input = .ok m
        ∧ (∀ k, k ∉ a.keys → mapLookup m k = mapLookup input k)
        ∧ (∀ kf ∈ a.additions, ∀ v, kf.2 input = .ok v →
            mapLookup m kf.1 = some v)
        ∧ (∀ k, (mapLookup m k).isSome ↔
            ((mapLookup input k).isSome ∨ k ∈ a.keys)))
    ∧ (∀ (V : Type) (a : Assign V) (input : List (String × V)),
      (∃ kf ∈ a.additions, ∃ e, kf.2 input = .error e) →
      ∃ e, a.invoke input = .error e
        ∧ ∃ kf, kf ∈ a.additions ∧ kf.2 input = .error e) := by
  constructor
  · intro V a input hnd hok
    exact assignGo_all_ok input a.additions input hnd hok
  · intro V a input hfail
    obtain ⟨kf, hkf, e, he⟩ := hfail
    suffices h : ∀ (adds : List (String × (List (String × V) → Except String V)))
        (acc : List (String × V)), (∃ kg ∈ adds, ∃ e, kg.2 input = .error e) →
        ∃ e, assignGo input adds acc = .error e
          ∧ ∃ kg, kg ∈ adds ∧ kg.2 input = .error e by
      exact h a.additions input ⟨kf, hkf, e, he⟩
    intro adds
    induction adds with
    | nil =>
        intro acc hex
        obtain ⟨kg, hkg, _⟩ := hex
        exact absurd hkg (by simp)
    | cons kg rest ih =>
        intro acc hex
        cases hrun : kg.2 input with
        | error e' =>
            refine ⟨e', ?_, kg, by simp, hrun⟩
            simp only [assignGo, hrun]
        | ok v =>
            obtain ⟨kg', hkg', e', he'⟩ := hex
            rcases List.mem_cons.mp hkg' with heq | hmem
            · subst heq
              rw [hrun] at he'
              exact absurd he' (by simp)
            · obtain ⟨e'', hrec, kg'', hkg'', he''⟩ :=
                ih (mapInsert acc kg.1 v) ⟨kg', hmem, e', he'⟩
              refine ⟨e'', ?_, kg'', by simp [hkg''], he''⟩
              simp only [assignGo, hrun]
              exact hrec

theorem assign_invoke_spec_witness :
    (∃ m, (Assign.mk [("b", fun _ => .ok (7 : Int))]).invoke
        [("a", (1 : Int))] = .ok m
      ∧ mapLookup m "a" = some (1 : Int) ∧ mapLookup m "b" = some (7 : Int))
    ∧ ∃ e, (Assign.mk [("b", fun _ => .error "fail")]).invoke
        [("a", (1 : Int))] = .error e := by
  constructor
  · have h := assign_invoke_spec.1 Int ⟨[("b", fun _ => .ok 7)]⟩
      [("a", 1)] (by decide)
      (by intro kf hkf
          simp only [List.mem_singleton] at hkf
          exact ⟨7, by rw [hkf]⟩)
    obtain ⟨m, hm, hframe, hadds, _⟩ := h
    refine ⟨m, hm, ?_, ?_⟩
    · rw [hframe "a" (by decide)]
      rfl
    · exact hadds ("b", fun _ => .ok 7) (by simp) 7 rfl
  · have h := assign_invoke_spec.2 Int ⟨[("b", fun _ => .error "fail")]⟩
      [("a", 1)] ⟨("b", fun _ => .error "fail"), by simp, "fail", rfl⟩
    obtain ⟨e, he, _⟩ := h
    exact ⟨e, he⟩

/-! ## Agent executor (`src/unnamed/part_011`, package `agents`) -/

/-- The `AgentAction` struct (`src/agents/types.go`); the `MessageLog`
field, unused by the executor, is not modelled. -/
structure AgentAction where
  tool : String
  toolInput : String
  log : String
deriving DecidableEq, Repr

/-- The `AgentStep` struct: one executed action with its observation. -/
structure AgentStep where
  action : AgentAction
  observation : String
deriving DecidableEq, Repr

/-- A dynamic value of the agent's `map[string]any` maps: the constructors
cover the values the claims exercise, including the `[]AgentStep` stored
under `"intermediate_steps"`. -/
inductive AVal where
  | str (s : String)
  | int (n : Int)
  | bool (b : Bool)
  | steps (l : List AgentStep)
deriving DecidableEq, Repr

/-- A Go `map[string]any` of the agent world, as an association list. -/
abbrev AMap := List (String × AVal)

/-- The `AgentFinish` struct (`MessageLog` not modelled). -/
structure AgentFinish where
  returnValues : AMap
  log : String
deriving DecidableEq, Repr

/-- The `AgentOutput` struct: an actions list and an optional finish.  Its
documentation promises either-or, but the struct itself can hold both. -/
structure AgentOutput where
  actions : List AgentAction
  finish : Option AgentFinish
deriving DecidableEq, Repr

/-- A registered tool: its name and its `Run` (context not modelled). -/
structure Tool where
  name : String
  run : String → Except String String

/-- The `toolMap` built by `NewAgentExecutor`: a Go map filled by iterating
over the tool slice, so on duplicate names the last registration wins. -/
def toolMap (ts : List Tool) (n : String) : Option Tool :=
  ts.foldl (fun acc t => if t.name = n then some t else acc) none

/-- `strings.Join(names, ", ")` as used by `availableToolNames`. -/
def joinComma : List String → String
  | [] => ""
  | [s] => s
  | s :: rest => s ++ ", " ++ joinComma rest

/-- `AgentExecutor.availableToolNames`: the registered tool names joined by
commas, in registration order. -/
def availableToolNames (ts : List Tool) : String :=
  joinComma (ts.map Tool.name)

/-- The `AgentExecutor` struct; the callback list only receives
notifications and does not influence the returned values, so it is not
modelled — the model instead records the loop's planner calls, tool runs
and step-log appends as an explicit event trace. -/
structure AgentExecutor where
  agent : List AgentStep → AMap → Except String AgentOutput
  tools : List Tool
  maxIterations : Nat
  returnIntermediateSteps : Bool
  handleParsingErrors : Bool

/-- Observable events of one `AgentExecutor.Invoke` run: a planner call
(`agent.Plan`), a tool invocation (`tool.Run`), and an append to the
intermediate-steps log. -/
inductive AgentEv where
  | planCall
  | toolRun (name : String)
  | stepAppend (s : AgentStep)
deriving DecidableEq, Repr

/-- Whether an event is a planner call. -/
def AgentEv.isPlanCall : AgentEv → Bool
  | .planCall => true
  | _ => false

/-- The body of the per-action loop of `AgentExecutor.Invoke` (lines 136-176
of `src/unnamed/part_011`): resolve the tool by exact name; an unknown name
yields an observation listing the requested name and the available tool
names without running anything; a known tool is run, a returned error being
converted into an observation; in every case the resulting step is appended
to the log.  Returns the appended step and the events of this action. -/
def execAction (e : AgentExecutor) (a : AgentAction) :
    AgentStep × List AgentEv :=
  match toolMap e.tools a.tool with
  | none =>
    let obs := "Tool " ++ goQuote a.tool ++ " not found. Available tools: "
      ++ availableToolNames e.tools
    (⟨a, obs⟩, [.stepAppend ⟨a, obs⟩])
  | some t =>
    match t.run a.toolInput with
    | .error err =>
      let obs := "Error executing tool " ++ a.tool ++ ": " ++ err
      (⟨a, obs⟩, [.toolRun a.tool, .stepAppend ⟨a, obs⟩])
    | .ok obs => (⟨a, obs⟩, [.toolRun a.tool, .stepAppend ⟨a, obs⟩])

/-- The result map built when the planner finishes (lines 120-133): the
finish's return values, with the step log added under
`"intermediate_steps"` when so configured. -/
def finishResult (e : AgentExecutor) (fin : AgentFinish)
    (steps : List AgentStep) : AMap :=
  if e.returnIntermediateSteps then
    mapInsert fin.returnValues "intermediate_steps" (AVal.steps steps)
  else fin.returnValues

/-- The `for iterations < e.maxIterations` loop of `AgentExecutor.Invoke`
(lines 93-186 of `src/unnamed/part_011`), with the remaining iteration
budget as fuel (every continuing path of the Go loop body increments
`iterations` exactly once).  Alongside Go's `(map, error)` result — the
`Except` value — the model returns the event trace of the run.  External
cancellation (the `ctx.Done()` check) is not exercised by the claims and is
not modelled. -/
def invokeLoop (e : AgentExecutor) :
    Nat → List AgentStep → AMap → Except String AMap × List AgentEv
  | 0, _, _ =>
    (.error ("agent exceeded maximum iterations ("
      ++ toString e.maxIterations ++ ")"), [])
  | fuel + 1, steps, input =>
    match e.agent steps input with
    | .error perr =>
      if e.handleParsingErrors then
        let r := invokeLoop e fuel (steps ++ [⟨⟨"_error", "", perr⟩,
          "Error: " ++ perr ++ ". Please try again with valid output."⟩]) input
        (r.1, .planCall :: r.2)
      else (.error ("agent planning error: " ++ perr), [.planCall])
    | .ok output =>
      match output.finish with
      | some fin => (.ok (finishResult e fin steps), [.planCall])
      | none =>
        let executed := output.actions.map (execAction e)
        let r := invokeLoop e fuel (steps ++ executed.map Prod.fst) input
        (r.1, .planCall :: ((executed.map Prod.snd).flatten ++ r.2))

/-- `AgentExecutor.Invoke`: run the loop with an empty step log and the full
iteration budget. -/
def AgentExecutor.invoke (e : AgentExecutor) (input : AMap) :
    Except String AMap × List AgentEv :=
  invokeLoop e e.maxIterations [] input

/-- The number of planner calls recorded in an event trace. -/
def planCount (evs : List AgentEv) : Nat :=
  evs.countP (fun ev => AgentEv.isPlanCall ev)

/-- `sub` occurs as a contiguous substring of `s`. -/
def containsStr (s sub : String) : Prop :=
  ∃ pre post, s = pre ++ sub ++ post

theorem containsStr_middle (pre mid post : String) :
    containsStr (pre ++ mid ++ post) mid :=
  ⟨pre, post, rfl⟩

theorem containsStr_refl (s : String) : containsStr s s :=
  ⟨"", "", by rw [String.empty_append, String.append_empty]⟩

theorem containsStr_trans {s x sub : String}
    (h1 : containsStr s x) (h2 : containsStr x sub) : containsStr s sub := by
  obtain ⟨p, q, hpq⟩ := h1
  obtain ⟨u, v, huv⟩ := h2
  exact ⟨p ++ u, v ++ q, by rw [hpq, huv]; simp [String.append_assoc]⟩

theorem containsStr_joinComma :
    ∀ (l : List String) (s : String), s ∈ l → containsStr (joinComma l) s := by
  intro l
  induction l with
  | nil => intro s hs; exact absurd hs (by simp)
  | cons hd rest ih =>
      intro s hs
      cases rest with
      | nil =>
          simp only [List.mem_singleton] at hs
          subst hs
          exact containsStr_refl _
      | cons hd2 tl =>
          rcases List.mem_cons.mp hs with heq | hmem
          · subst heq
            exact ⟨"", ", " ++ joinComma (hd2 :: tl), by
              show s ++ ", " ++ joinComma (hd2 :: tl) = "" ++ s ++ _
              rw [String.empty_append, String.append_assoc]⟩
          · obtain ⟨p, q, hpq⟩ := ih s hmem
            exact ⟨(hd ++ ", ") ++ p, q, by
              show hd ++ ", " ++ joinComma (hd2 :: tl) = _
              rw [hpq]; simp [String.append_assoc]⟩

/-- `execAction` never records a planner call: a plan call happens once per
loop iteration, never inside the per-action loop. -/
theorem execAction_no_planCall (e : AgentExecutor) (a : AgentAction) :
    ∀ ev ∈ (execAction e a).2, ev.isPlanCall = false := by
  intro ev hev
  cases h : toolMap e.tools a.tool with
  | none =>
      simp only [execAction, h, List.mem_singleton] at hev
      subst hev
      rfl
  | some t =>
      cases hr : t.run a.toolInput with
      | error err =>
          simp only [execAction, h, hr, List.mem_cons, List.not_mem_nil,
            or_false] at hev
          rcases hev with h1 | h2
          · subst h1; rfl
          · subst h2; rfl
      | ok obs =>
          simp only [execAction, h, hr, List.mem_cons, List.not_mem_nil,
            or_false] at hev
          rcases hev with h1 | h2
          · subst h1; rfl
          · subst h2; rfl

/-- The events of the per-action loop contain no planner call. -/
theorem planCount_exec_flatten (e : AgentExecutor) (acts : List AgentAction) :
    planCount (((acts.map (execAction e)).map Prod.snd).flatten) = 0 := by
  unfold planCount
  rw [List.countP_eq_zero]
  intro ev hev
  rw [List.mem_flatten] at hev
  obtain ⟨sub, hsub, hin⟩ := hev
  rw [List.mem_map] at hsub
  obtain ⟨pair, hpair, hps⟩ := hsub
  rw [List.mem_map] at hpair
  obtain ⟨a, _, hap⟩ := hpair
  subst hap
  subst hps
  simpa using execAction_no_planCall e a ev hin

theorem iterMsg_ne_planMsg (r m : String) :
    "agent exceeded maximum iterations (" ++ r
      ≠ "agent planning error: " ++ m := by
  intro h
  have hd := congrArg String.data h
  rw [String.data_append, String.data_append] at hd
  have h1 : ("agent exceeded maximum iterations (" : String).data
      = 'a' :: 'g' :: 'e' :: 'n' :: 't' :: ' ' :: 'e' ::
        ("xceeded maximum iterations (" : String).data := rfl
  have h2 : ("agent planning error: " : String).data
      = 'a' :: 'g' :: 'e' :: 'n' :: 't' :: ' ' :: 'p' ::
        ("lanning error: " : String).data := rfl
  rw [h1, h2] at hd
  simp at hd

theorem iterMsg_ne_toolObs (r t m : String) :
    "agent exceeded maximum iterations (" ++ r
      ≠ "Error executing tool " ++ t ++ ": " ++ m := by
  intro h
  have hd := congrArg String.data h
  rw [String.data_append, String.data_append, String.data_append,
    String.data_append] at hd
  have h1 : ("agent exceeded maximum iterations (" : String).data
      = 'a' :: ("gent exceeded maximum iterations (" : String).data := rfl
  have h2 : ("Error executing tool " : String).data
      = 'E' :: ("rror executing tool " : String).data := rfl
  rw [h1, h2] at hd
  simp at hd

/-- **C3.** For an executor whose planner never returns a `Finish` (every
plan call on this input succeeds and carries no finish), `Invoke` makes
exactly `maxIterations` planner calls and then returns the iteration-limit
error together with a nil result map (the `Except.error` case models Go's
`(nil, err)` return); that error is a distinct kind from plan and tool
failures: it never equals a planning error, and never equals a tool-failure
observation (tool failures are absorbed as observations and never surface as
returned errors at all). -/
theorem agent_iteration_limit (e : AgentExecutor) (input : AMap)
    (hplan : ∀ steps, ∃ out, e.agent steps input = Except.ok out
      ∧ out.finish = none) :
    (e.invoke input).1 = .error ("agent exceeded maximum iterations ("
        ++ toString e.maxIterations ++ ")")
    ∧ planCount (e.invoke input).2 = e.maxIterations
    ∧ (∀ m, ("agent exceeded maximum iterations ("
        ++ toString e.maxIterations ++ ")") ≠ "agent planning error: " ++ m)
    ∧ (∀ t m, ("agent exceeded maximum iterations ("
        ++ toString e.maxIterations ++ ")")
          ≠ "Error executing tool " ++ t ++ ": " ++ m) := by
  have main : ∀ (fuel : Nat) (steps : List AgentStep),
      (invokeLoop e fuel steps input).1 = .error
        ("agent exceeded maximum iterations ("
          ++ toString e.maxIterations ++ ")")
      ∧ planCount (invokeLoop e fuel steps input).2 = fuel := by
    intro fuel
    induction fuel with
    | zero => intro steps; exact ⟨rfl, rfl⟩
    | succ k ih =>
        intro steps
        obtain ⟨out, hout, hfin⟩ := hplan steps
        have h1 := (ih (steps ++ ((out.actions.map (execAction e)).map
          Prod.fst))).1
        have h2 := (ih (steps ++ ((out.actions.map (execAction e)).map
          Prod.fst))).2
        constructor
        · simp only [invokeLoop, hout, hfin]
          exact h1
        · have h0 := planCount_exec_flatten e out.actions
          unfold planCount at h0 h2 ⊢
          simp only [AgentEv.isPlanCall] at h0 h2 ⊢
          simp only [invokeLoop, hout, hfin, List.countP_cons,
            List.countP_append, h0, h2, eq_self_iff_true, if_true]
          omega
  exact ⟨(main e.maxIterations []).1, (main e.maxIterations []).2,
    fun m => iterMsg_ne_planMsg _ m, fun t m => iterMsg_ne_toolObs _ t m⟩

/-- The executor of the `C3` witness: a planner that always asks for one
more `calc` action, no tools, a budget of three iterations. -/
def c3Exec : AgentExecutor where
  agent := fun _ _ => .ok ⟨[⟨"calc", "x", ""⟩], none⟩
  tools := []
  maxIterations := 3
  returnIntermediateSteps := false
  handleParsingErrors := false

theorem agent_iteration_limit_witness :
    (c3Exec.invoke []).1 = .error "agent exceeded maximum iterations (3)"
    ∧ planCount (c3Exec.invoke []).2 = 3 := by
  have h := agent_iteration_limit c3Exec []
    (fun _ => ⟨⟨[⟨"calc", "x", ""⟩], none⟩, rfl, rfl⟩)
  exact ⟨h.1.trans (congrArg Except.error (by decide)), h.2.1⟩

/-- Whatever the planner and tools do, a loop entered with at least one
iteration of budget records at least one planner call. -/
theorem invokeLoop_planCount_pos (e : AgentExecutor) (input : AMap) :
    ∀ (k : Nat) (steps : List AgentStep),
      1 ≤ planCount (invokeLoop e (k + 1) steps input).2 := by
  intro k steps
  cases hag : e.agent steps input with
  | error perr =>
      cases hpe : e.handleParsingErrors with
      | true =>
          simp only [invokeLoop, hag, hpe, if_true, planCount,
            List.countP_cons, AgentEv.isPlanCall, eq_self_iff_true]
          omega
      | false =>
          simp [invokeLoop, hag, hpe, planCount, AgentEv.isPlanCall]
  | ok output =>
      cases hfin : output.finish with
      | some fin =>
          simp [invokeLoop, hag, hfin, planCount, AgentEv.isPlanCall]
      | none =>
          simp only [invokeLoop, hag, hfin, planCount, List.countP_cons,
            List.countP_append, AgentEv.isPlanCall, eq_self_iff_true, if_true]
          omega

/-- **C6.** During an `AgentExecutor` iteration: an action naming a tool
absent from the registered set appends to the step log an observation that
contains the requested name and every available tool name, raising no error
and running no tool; a registered tool whose `Run` fails has the failure
converted into an observation appended to the step log; and in both cases
the loop continues — with at least two iterations of budget and a first plan
that returns actions (of any kind), a second planner call occurs. -/
theorem agent_absorbs_tool_failures :
    (∀ (e : AgentExecutor) (a : AgentAction), toolMap e.tools a.tool = none →
      (execAction e a).2 = [.stepAppend (execAction e a).1]
      ∧ (execAction e a).1 = ⟨a, "Tool " ++ goQuote a.tool
          ++ " not found. Available tools: " ++ availableToolNames e.tools⟩
      ∧ containsStr (execAction e a).1.observation a.tool
      ∧ ∀ t ∈ e.tools, containsStr (execAction e a).1.observation t.name)
    ∧ (∀ (e : AgentExecutor) (a : AgentAction) (t : Tool) (err : String),
      toolMap e.tools a.tool = some t → t.run a.toolInput = .error err →
      (execAction e a).1 = ⟨a, "Error executing tool " ++ a.tool ++ ": " ++ err⟩
      ∧ (execAction e a).2 = [.toolRun a.tool, .stepAppend ⟨a,
          "Error executing tool " ++ a.tool ++ ": " ++ err⟩])
    ∧ (∀ (e : AgentExecutor) (input : AMap) (out : AgentOutput),
      2 ≤ e.maxIterations → e.agent [] input = .ok out → out.finish = none →
      2 ≤ planCount (e.invoke input).2) := by
  refine ⟨?_, ?_, ?_⟩
  · intro e a h
    have hexec : execAction e a = (⟨a, "Tool " ++ goQuote a.tool
        ++ " not found. Available tools: " ++ availableToolNames e.tools⟩,
        [.stepAppend ⟨a, "Tool " ++ goQuote a.tool
          ++ " not found. Available tools: " ++ availableToolNames e.tools⟩]) := by
      simp only [execAction, h]
    rw [hexec]
    refine ⟨rfl, rfl, ?_, ?_⟩
    · refine containsStr_trans (x := goQuote a.tool) ?_ ⟨"\"", "\"", rfl⟩
      exact ⟨"Tool ", " not found. Available tools: "
        ++ availableToolNames e.tools, by simp [String.append_assoc]⟩
    · intro t ht
      refine containsStr_trans (x := availableToolNames e.tools) ?_ ?_
      · exact ⟨"Tool " ++ goQuote a.tool ++ " not found. Available tools: ",
          "", by simp [String.append_assoc, String.append_empty]⟩
      · exact containsStr_joinComma (e.tools.map Tool.name) t.name
          (List.mem_map.mpr ⟨t, ht, rfl⟩)
  · intro e a t err h hr
    refine ⟨?_, ?_⟩ <;> simp [execAction, h, hr]
  · intro e input out hmax hplan hfin
    obtain ⟨k, hk⟩ : ∃ k, e.maxIterations = (k + 1) + 1 :=
      ⟨e.maxIterations - 2, by omega⟩
    have hpos := invokeLoop_planCount_pos e input k
      ([] ++ ((out.actions.map (execAction e)).map Prod.fst))
    have h0 := planCount_exec_flatten e out.actions
    unfold AgentExecutor.invoke
    rw [hk]
    unfold planCount at hpos h0 ⊢
    simp only [AgentEv.isPlanCall] at hpos h0 ⊢
    conv_rhs => rw [invokeLoop]
    simp only [hplan, hfin, List.countP_cons, List.countP_append, h0,
      eq_self_iff_true, if_true]
    omega

/-- The tool of the `C6` witness: registered as `calc`, always failing. -/
def c6Tool : Tool := ⟨"calc", fun _ => .error "bad input"⟩

/-- The executor of the `C6` witness: its planner always requests the
unregistered tool `missing`, and it has two iterations of budget. -/
def c6Exec : AgentExecutor where
  agent := fun _ _ => .ok ⟨[⟨"missing", "", ""⟩], none⟩
  tools := [c6Tool]
  maxIterations := 2
  returnIntermediateSteps := false
  handleParsingErrors := false

theorem agent_absorbs_tool_failures_witness :
    (execAction c6Exec ⟨"missing", "", ""⟩).1 = ⟨⟨"missing", "", ""⟩,
      "Tool \"missing\" not found. Available tools: calc"⟩
    ∧ (execAction c6Exec ⟨"calc", "x", ""⟩).1 = ⟨⟨"calc", "x", ""⟩,
      "Error executing tool calc: bad input"⟩
    ∧ 2 ≤ planCount (c6Exec.invoke []).2 := by
  have h1 := agent_absorbs_tool_failures.1 c6Exec ⟨"missing", "", ""⟩ (by rfl)
  have h2 := agent_absorbs_tool_failures.2.1 c6Exec ⟨"calc", "x", ""⟩ c6Tool
    "bad input" (by rfl) (by rfl)
  have h3 := agent_absorbs_tool_failures.2.2 c6Exec []
    ⟨[⟨"missing", "", ""⟩], none⟩ (by decide) rfl rfl
  exact ⟨h1.2.1.trans (by decide), h2.1.trans (by decide), h3⟩

/-- **C10.** When the planner returns an `AgentOutput` carrying both a
`Finish` and a non-empty `Actions` list — which the data model forbids but
the executor does not check — `Invoke` treats it as a finish: it returns the
finish's return values (with `returnIntermediateSteps` off), and the
recorded trace is exactly one planner call, so no action is executed and
nothing is appended to the step log. -/
theorem agent_finish_overrides_actions (e : AgentExecutor) (input : AMap)
    (out : AgentOutput) (fin : AgentFinish)
    (hmax : 1 ≤ e.maxIterations) (hret : e.returnIntermediateSteps = false)
    (hplan : e.agent [] input = .ok out) (hfin : out.finish = some fin)
    (hacts : out.actions ≠ []) :
    e.invoke input = (.ok fin.returnValues, [.planCall]) := by
  obtain ⟨k, hk⟩ : ∃ k, e.maxIterations = k + 1 :=
    ⟨e.maxIterations - 1, by omega⟩
  unfold AgentExecutor.invoke
  rw [hk]
  simp [invokeLoop, hplan, hfin, finishResult, hret]

/-- The executor of the `C10` witness: its planner returns an output whose
`Actions` and `Finish` are both populated. -/
def c10Exec : AgentExecutor where
  agent := fun _ _ => .ok ⟨[⟨"t", "i", "l"⟩],
    some ⟨[("output", AVal.str "done")], "lg"⟩⟩
  tools := []
  maxIterations := 3
  returnIntermediateSteps := false
  handleParsingErrors := false

theorem agent_finish_overrides_actions_witness :
    c10Exec.invoke [] = (.ok [("output", AVal.str "done")], [.planCall]) :=
  agent_finish_overrides_actions c10Exec []
    ⟨[⟨"t", "i", "l"⟩], some ⟨[("output", AVal.str "done")], "lg"⟩⟩
    ⟨[("output", AVal.str "done")], "lg"⟩
    (by decide) rfl rfl rfl (by decide)

end LangChainGo
